import Mathlib

/-!
Shallow embedding of the db-benchmark repository's core: the IR metric
functions (src/utils/metrics_ir.py), the qrels loader and evaluation loop
of src/scripts/eval_fiqa.py, the backend clients' upsert/search shapes
(src/databases/), and the backend factory.

Python floats are modelled exactly: values reachable by the code's
additions and divisions are represented in ℚ where only rational
arithmetic occurs, and in ℝ where `math.log2` enters (nDCG).
-/

namespace DbBench

/-- Python metadata dicts (string keys and values suffice for this code). -/
def Meta := List (String × String)

/-- `meta.get(key, '')` on a Python dict. -/
def metaGetD (m : Meta) (key : String) : String :=
  (List.lookup key m).getD ""

/-! ## src/utils/metrics_ir.py -/

/-- `recall_at_k` from src/utils/metrics_ir.py: guard on empty truth set,
then `|truth ∩ set(retrieved[:k])| / |truth|`. -/
def recall_at_k (truth_doc_ids : Finset String) (retrieved_doc_ids : List String)
    (k : ℕ) : ℚ :=
  if truth_doc_ids = ∅ then 0
  else
    ((truth_doc_ids ∩ (retrieved_doc_ids.take k).toFinset).card : ℚ) /
      (truth_doc_ids.card : ℚ)

/-- The scan of `mrr_at_k`: walk `retrieved[:k]` with a running 0-based
index `i`, returning `1 / (i + 1)` at the first hit, else `0`. -/
def mrrScan (truth : Finset String) : List String → ℕ → ℚ
  | [], _ => 0
  | d :: rest, i => if d ∈ truth then 1 / ((i : ℚ) + 1) else mrrScan truth rest (i + 1)

/-- `mrr_at_k` from src/utils/metrics_ir.py. -/
def mrr_at_k (truth_doc_ids : Finset String) (retrieved_doc_ids : List String)
    (k : ℕ) : ℚ :=
  if truth_doc_ids = ∅ then 0
  else mrrScan truth_doc_ids (retrieved_doc_ids.take k) 0

/-- The DCG accumulation of `ndcg_at_k`: over `retrieved[:k]` with 0-based
index `i`, each hit contributes `1 / log2(i + 2)`. -/
noncomputable def dcgScan (truth : Finset String) : List String → ℕ → ℝ
  | [], _ => 0
  | d :: rest, i =>
      (if d ∈ truth then 1 / Real.logb 2 ((i : ℝ) + 2) else 0) + dcgScan truth rest (i + 1)

/-- The ideal DCG of `ndcg_at_k`:
`sum(1.0 / math.log2(i + 2) for i in range(min(len(truth), k)))`. -/
noncomputable def idcgVal (truth : Finset String) (k : ℕ) : ℝ :=
  ∑ i in Finset.range (min truth.card k), 1 / Real.logb 2 ((i : ℝ) + 2)

open Classical in
/-- `ndcg_at_k` from src/utils/metrics_ir.py: guard on empty truth, compute
DCG and ideal DCG, guard on `idcg == 0`, return `dcg / idcg`. -/
noncomputable def ndcg_at_k (truth_doc_ids : Finset String)
    (retrieved_doc_ids : List String) (k : ℕ) : ℝ :=
  if truth_doc_ids = ∅ then 0
  else
    if idcgVal truth_doc_ids k = 0 then 0
    else dcgScan truth_doc_ids (retrieved_doc_ids.take k) 0 / idcgVal truth_doc_ids k

/-! ## src/databases/: the backend variants and the factory -/

/-- The closed set of backend variants dispatched by `get_db_client` in
src/scripts/eval_fiqa.py. -/
inductive Backend
  | qdrant
  | weaviate
  | redis
  | pgvector
  | neo4j
deriving DecidableEq

/-- `get_db_client` of src/scripts/eval_fiqa.py: name-string dispatch; an
unknown name raises ValueError, modelled as `none`. -/
def get_db_client (db_name : String) : Option Backend :=
  if db_name = "qdrant" then some .qdrant
  else if db_name = "weaviate" then some .weaviate
  else if db_name = "redis" then some .redis
  else if db_name = "pgvector" then some .pgvector
  else if db_name = "neo4j" then some .neo4j
  else none

/-- Which variants define `setup` in their class body (all do). -/
def definesSetup : Backend → Bool := fun _ => true

/-- Which variants define `upsert` in their class body (all do). -/
def definesUpsert : Backend → Bool := fun _ => true

/-- Which variants define `search` in their class body (all do). -/
def definesSearch : Backend → Bool := fun _ => true

/-- Which variants define `clear` in their class body (all do). -/
def definesClear : Backend → Bool := fun _ => true

/-- Which variants define `close` in their class body. `VectorDB.close` is
abstract (src/databases/base.py); QdrantVectorDB (src/databases/qdrant_client.py)
defines setup, upsert, search and clear only — no `close`. -/
def definesClose : Backend → Bool
  | .qdrant => false
  | .weaviate => true
  | .redis => true
  | .pgvector => true
  | .neo4j => true

/-- A variant is constructible and offers the full five-operation contract
only when every abstract method of `VectorDB` has a definition (Python ABCs
refuse to instantiate otherwise). -/
def implementsContract (b : Backend) : Bool :=
  definesSetup b && definesUpsert b && definesSearch b && definesClear b && definesClose b

/-- `QdrantVectorDB.upsert`: `points = [PointStruct(id=idx, vector=v, payload=m)
for idx, v, m in zip(ids, vectors, metas)]` — zip truncates to the shortest. -/
def qdrantUpsertPoints (ids : List String) (vectors : List (List ℚ))
    (metas : List Meta) : List (String × List ℚ × Meta) :=
  (ids.zip (vectors.zip metas)).map fun x => (x.1, x.2.1, x.2.2)

/-- `RedisVectorDB.upsert`: for each `idx, vector, meta in zip(...)`, hset at
key `prefix + idx` the vector bytes and `meta.get('doc_id', '')`. -/
def redisUpsertEntries (pre : String) (ids : List String) (vectors : List (List ℚ))
    (metas : List Meta) : List (String × List ℚ × String) :=
  (ids.zip (vectors.zip metas)).map fun x =>
    (pre ++ x.1, x.2.1, metaGetD x.2.2 "doc_id")

/-- `PgVectorDB.upsert`: `data = [(idx, meta.get('doc_id',''), meta.get('text',''),
vector) for idx, vector, meta in zip(ids, vectors, metas)]`. -/
def pgvectorUpsertRows (ids : List String) (vectors : List (List ℚ))
    (metas : List Meta) : List (String × String × String × List ℚ) :=
  (ids.zip (vectors.zip metas)).map fun x =>
    (x.1, metaGetD x.2.2 "doc_id", metaGetD x.2.2 "text", x.2.1)

/-- `Neo4jVectorDB.search` (src/databases/neo4j_client.py): `return []`
for every query vector and every `k`. -/
def neo4jSearch (_query_vec : List ℚ) (_k : ℕ) : List (String × ℝ × Meta) :=
  []

/-- `retrieved_ids = [str(result[0]) for result in results]` in
src/scripts/eval_fiqa.py. -/
def retrievedIds (results : List (String × ℝ × Meta)) : List String :=
  results.map fun r => r.1

/-! ## src/scripts/eval_fiqa.py: qrels loading, batching, evaluation loop -/

/-- The Python qrels dict, query id → list of relevant corpus ids. -/
def Qrels := String → Option (List String)

/-- One line of `load_qrels`: ensure the key exists (with `[]` initially),
then append `corpus_id` only when `score > 0`. A row is
`(query_id, corpus_id, score)`. -/
def qrelsStep (d : Qrels) (row : String × String × ℤ) : Qrels :=
  fun q =>
    if q = row.1 then
      some (if 0 < row.2.2 then ((d row.1).getD []) ++ [row.2.1] else (d row.1).getD [])
    else d q

/-- `load_qrels` of src/scripts/eval_fiqa.py over the parsed rows of the
TSV body (header already skipped). -/
def load_qrels (rows : List (String × String × ℤ)) : Qrels :=
  rows.foldl qrelsStep (fun _ => none)

/-- The indexing loop `for i in range(0, len(ids), batch_size)` of
src/scripts/eval_fiqa.py: batch `j` is `l[j*bs : j*bs + bs]`, and the
number of iterations of the Python range is `⌈len(l) / bs⌉`. -/
def pyBatches {α : Type} (l : List α) (bs : ℕ) : List (List α) :=
  (List.range ((l.length + bs - 1) / bs)).map fun j => (l.drop (j * bs)).take bs

/-- `eval_queries = [q for q in queries if q['_id'] in qrels]`: the queries
kept for the evaluation loop and counted in `len(eval_queries)` for QPS. -/
def evalQueries (queries : List String) (qrels : Qrels) : List String :=
  queries.filter fun q => (qrels q).isSome

/-- The evaluation loop body over `eval_queries`: per query build
`truth_ids = set(qrels[qid])`, `continue` when empty, else append
`(embed_time + search_time) * 1000` to latencies and the three metric
values (at `k = 10`) to their lists. `search` maps a query id to the
retrieved id list of `db.search`; `embedT`/`searchT` are the measured
wall-clock times in seconds. Returns (latencies, recalls, mrrs, ndcgs). -/
noncomputable def evalLoop (qrels : Qrels) (search : String → List String)
    (embedT searchT : String → ℚ) :
    List String → List ℚ × List ℚ × List ℚ × List ℝ
  | [] => ([], [], [], [])
  | q :: rest =>
      let truth := ((qrels q).getD []).toFinset
      let r := evalLoop qrels search embedT searchT rest
      if truth = ∅ then r
      else
        ((embedT q + searchT q) * 1000 :: r.1,
         recall_at_k truth (search q) 10 :: r.2.1,
         mrr_at_k truth (search q) 10 :: r.2.2.1,
         ndcg_at_k truth (search q) 10 :: r.2.2.2)

/-- The whole query phase of `main`: filter to `eval_queries`, run the loop,
and keep `len(eval_queries)` — the numerator of `qps = len(eval_queries) /
eval_time`. -/
noncomputable def runEval (queries : List String) (qrels : Qrels)
    (search : String → List String) (embedT searchT : String → ℚ) :
    (List ℚ × List ℚ × List ℚ × List ℝ) × ℕ :=
  (evalLoop qrels search embedT searchT (evalQueries queries qrels),
   (evalQueries queries qrels).length)

/-- The queries that actually contribute per-query outcomes: key present in
the qrels dict with a non-empty relevant list. -/
def scoredQueries (queries : List String) (qrels : Qrels) : List String :=
  queries.filter fun q => !((qrels q).getD []).isEmpty

/-! ## Helper lemmas -/

/-- The evaluation loop produces, over any query list, the latency and
metric lists of exactly the queries whose qrels entry is non-empty, in
order. -/
theorem evalLoop_eq (qrels : Qrels) (search : String → List String)
    (embedT searchT : String → ℚ) (l : List String) :
    evalLoop qrels search embedT searchT l =
      ((l.filter fun q => !((qrels q).getD []).isEmpty).map fun q =>
         (embedT q + searchT q) * 1000,
       (l.filter fun q => !((qrels q).getD []).isEmpty).map fun q =>
         recall_at_k ((qrels q).getD []).toFinset (search q) 10,
       (l.filter fun q => !((qrels q).getD []).isEmpty).map fun q =>
         mrr_at_k ((qrels q).getD []).toFinset (search q) 10,
       (l.filter fun q => !((qrels q).getD []).isEmpty).map fun q =>
         ndcg_at_k ((qrels q).getD []).toFinset (search q) 10) := by
  induction l with
  | nil => simp [evalLoop]
  | cons q rest ih =>
    simp only [evalLoop, ih, List.filter_cons]
    by_cases h : ((qrels q).getD []).toFinset = ∅
    · have hb : (!((qrels q).getD []).isEmpty) = false := by
        rw [List.toFinset_eq_empty_iff] at h
        simp [h]
      simp [h, hb]
    · have hb : (!((qrels q).getD []).isEmpty) = true := by
        rw [List.toFinset_eq_empty_iff] at h
        simp [h]
      simp [h, hb]

/-- Filtering the key-present queries down to the non-empty-truth ones is
the same as filtering for non-empty truth directly (a missing key defaults
to the empty list). -/
theorem filter_evalQueries_eq_scored (queries : List String) (qrels : Qrels) :
    (evalQueries queries qrels).filter (fun q => !((qrels q).getD []).isEmpty) =
      scoredQueries queries qrels := by
  rw [evalQueries, scoredQueries, List.filter_filter]
  apply List.filter_congr
  intro x _
  cases hqx : qrels x with
  | none => simp [hqx]
  | some lst => simp [hqx]

/-- Splitting the scanned list splits the DCG accumulation, shifting the
running index by the first part's length. -/
theorem dcgScan_append (T : Finset String) (l₁ l₂ : List String) (n : ℕ) :
    dcgScan T (l₁ ++ l₂) n = dcgScan T l₁ n + dcgScan T l₂ (n + l₁.length) := by
  induction l₁ generalizing n with
  | nil => simp [dcgScan]
  | cons a l ih =>
    simp only [List.cons_append, dcgScan, List.append_eq, ih, List.length_cons]
    have h : n + 1 + l.length = n + (l.length + 1) := by omega
    rw [← add_assoc, h]

/-- A scanned segment whose entries are all relevant contributes one
discounted unit per position. -/
theorem dcgScan_all_hits (T : Finset String) (l : List String) (n : ℕ)
    (h : ∀ x ∈ l, x ∈ T) :
    dcgScan T l n =
      ∑ i in Finset.range l.length, 1 / Real.logb 2 (((n + i : ℕ) : ℝ) + 2) := by
  induction l generalizing n with
  | nil => simp [dcgScan]
  | cons a l ih =>
    simp only [dcgScan, List.length_cons]
    rw [if_pos (h a (List.mem_cons_self a l)),
      ih (n + 1) (fun x hx => h x (List.mem_cons_of_mem a hx))]
    conv_rhs => rw [Finset.sum_range_succ']
    have hsum : (∑ i in Finset.range l.length,
        1 / Real.logb 2 (((n + 1 + i : ℕ) : ℝ) + 2)) =
        ∑ i in Finset.range l.length, 1 / Real.logb 2 (((n + (i + 1) : ℕ) : ℝ) + 2) :=
      Finset.sum_congr rfl (fun i _ => by rw [show n + 1 + i = n + (i + 1) from by omega])
    rw [hsum, Nat.add_zero]
    exact add_comm _ _

/-- A scanned segment with no relevant entry contributes nothing. -/
theorem dcgScan_all_miss (T : Finset String) (l : List String) (n : ℕ)
    (h : ∀ x ∈ l, x ∉ T) : dcgScan T l n = 0 := by
  induction l generalizing n with
  | nil => simp [dcgScan]
  | cons a l ih =>
    simp only [dcgScan]
    rw [if_neg (h a (List.mem_cons_self a l)),
      ih (n + 1) (fun x hx => h x (List.mem_cons_of_mem a hx))]
    simp

/-- The ideal DCG is positive whenever the truth set is non-empty and
`k ≥ 1`. -/
theorem idcgVal_pos (T : Finset String) (k : ℕ) (hT : T ≠ ∅) (hk : 1 ≤ k) :
    0 < idcgVal T k := by
  rw [idcgVal]
  apply Finset.sum_pos
  · intro i _
    apply div_pos one_pos
    apply Real.logb_pos one_lt_two
    have hi : (0 : ℝ) ≤ (i : ℝ) := Nat.cast_nonneg i
    linarith
  · rw [Finset.nonempty_range_iff]
    have hc : 0 < T.card := Finset.card_pos.mpr (Finset.nonempty_iff_ne_empty.mpr hT)
    omega

/-- Membership in a loaded qrels entry, for an arbitrary starting dict:
present iff already present or contributed by a positive-score row. -/
theorem foldl_qrelsStep_mem (rows : List (String × String × ℤ)) (d : Qrels)
    (qid cid : String) :
    cid ∈ ((rows.foldl qrelsStep d qid).getD []) ↔
      cid ∈ ((d qid).getD []) ∨ ∃ s : ℤ, (qid, cid, s) ∈ rows ∧ 0 < s := by
  induction rows generalizing d with
  | nil => simp
  | cons r rest ih =>
    obtain ⟨q1, c1, s1⟩ := r
    rw [List.foldl_cons, ih]
    have hstep : ((qrelsStep d (q1, c1, s1)) qid).getD [] =
        if qid = q1 then
          (if 0 < s1 then ((d q1).getD []) ++ [c1] else (d q1).getD [])
        else (d qid).getD [] := by
      simp only [qrelsStep]
      by_cases hq : qid = q1 <;> simp [hq]
    rw [hstep]
    by_cases hq : qid = q1
    · subst hq
      rw [if_pos rfl]
      by_cases hs : (0 : ℤ) < s1
      · rw [if_pos hs]
        constructor
        · rintro (hmem | ⟨s, hmem, hpos⟩)
          · rcases List.mem_append.mp hmem with hb | hc
            · exact Or.inl hb
            · have hcc : cid = c1 := List.mem_singleton.mp hc
              subst hcc
              exact Or.inr ⟨s1, List.mem_cons_self _ _, hs⟩
          · exact Or.inr ⟨s, List.mem_cons_of_mem _ hmem, hpos⟩
        · rintro (hb | ⟨s, hmem, hpos⟩)
          · exact Or.inl (List.mem_append.mpr (Or.inl hb))
          · rcases List.mem_cons.mp hmem with heq | hrest
            · simp only [Prod.mk.injEq] at heq
              obtain ⟨-, hc, hss⟩ := heq
              subst hc
              exact Or.inl (List.mem_append.mpr (Or.inr (List.mem_singleton.mpr rfl)))
            · exact Or.inr ⟨s, hrest, hpos⟩
      · rw [if_neg hs]
        constructor
        · rintro (hb | ⟨s, hmem, hpos⟩)
          · exact Or.inl hb
          · exact Or.inr ⟨s, List.mem_cons_of_mem _ hmem, hpos⟩
        · rintro (hb | ⟨s, hmem, hpos⟩)
          · exact Or.inl hb
          · rcases List.mem_cons.mp hmem with heq | hrest
            · simp only [Prod.mk.injEq] at heq
              obtain ⟨-, -, hss⟩ := heq
              exact absurd (hss ▸ hpos) hs
            · exact Or.inr ⟨s, hrest, hpos⟩
    · rw [if_neg hq]
      constructor
      · rintro (hb | ⟨s, hmem, hpos⟩)
        · exact Or.inl hb
        · exact Or.inr ⟨s, List.mem_cons_of_mem _ hmem, hpos⟩
      · rintro (hb | ⟨s, hmem, hpos⟩)
        · exact Or.inl hb
        · rcases List.mem_cons.mp hmem with heq | hrest
          · simp only [Prod.mk.injEq] at heq
            exact absurd heq.1 hq
          · exact Or.inr ⟨s, hrest, hpos⟩

/-! ## Claim theorems -/

/-- C1: the factory accepts the name "qdrant", but QdrantVectorDB defines
only four of the five contract operations — `close` is missing, so the
five-operation contract is not implemented by every accepted backend. -/
theorem qdrant_missing_close :
    get_db_client "qdrant" = some Backend.qdrant ∧
      definesSetup Backend.qdrant = true ∧ definesUpsert Backend.qdrant = true ∧
      definesSearch Backend.qdrant = true ∧ definesClear Backend.qdrant = true ∧
      definesClose Backend.qdrant = false ∧
      implementsContract Backend.qdrant = false := by
  exact ⟨by decide, rfl, rfl, rfl, rfl, rfl, rfl⟩

/-- C2 counterexample: with an embed time of 1 s and a search time of 2 s
on the single evaluated query, the recorded per-query latency is 3000 ms,
not the 2000 ms of the search call alone. -/
theorem latency_includes_embed_time_cex :
    ((runEval ["q1"] (fun q => if q = "q1" then some ["d1"] else none)
        (fun _ => ["d1"]) (fun _ => 1) (fun _ => 2)).1).1 = [3000] ∧
      (3000 : ℚ) ≠ 2 * 1000 := by
  constructor
  · rw [runEval, evalLoop_eq]
    norm_num [evalQueries, List.filter]
  · norm_num

/-- C2 amended: the per-query latency list recorded and fed into the
latency percentile holds, for each scored query, `(embed_time +
search_time) * 1000` — embedding time is folded into the same per-query
latency. -/
theorem latency_is_embed_plus_search (queries : List String) (qrels : Qrels)
    (search : String → List String) (embedT searchT : String → ℚ) :
    ((runEval queries qrels search embedT searchT).1).1 =
      (scoredQueries queries qrels).map fun q => (embedT q + searchT q) * 1000 := by
  rw [runEval, evalLoop_eq, filter_evalQueries_eq_scored]

/-- C3 counterexample: with qrels rows `(q1, d1, 1)` and `(q2, d2, 0)`,
query q2 has a key in the qrels dict with an empty relevant list, yet the
evaluated-query count used as the QPS numerator is 2, while only 1 query
contributes metric values. -/
theorem qps_count_includes_empty_truth_cex :
    (runEval ["q1", "q2"] (load_qrels [("q1", "d1", 1), ("q2", "d2", 0)])
        (fun _ => []) (fun _ => 0) (fun _ => 0)).2 = 2 ∧
      (scoredQueries ["q1", "q2"] (load_qrels [("q1", "d1", 1), ("q2", "d2", 0)])).length = 1 := by
  constructor
  · rfl
  · rfl

/-- C3 amended: the metric lists aggregate exactly the queries whose id is
a qrels key with a non-empty relevant set, in order; but the
evaluated-query count used for QPS counts every query whose id is a qrels
key, including those whose relevant set is empty. -/
theorem eval_loop_characterization (queries : List String) (qrels : Qrels)
    (search : String → List String) (embedT searchT : String → ℚ) :
    (runEval queries qrels search embedT searchT).1.2.1 =
      ((scoredQueries queries qrels).map fun q =>
        recall_at_k ((qrels q).getD []).toFinset (search q) 10) ∧
    (runEval queries qrels search embedT searchT).1.2.2.1 =
      ((scoredQueries queries qrels).map fun q =>
        mrr_at_k ((qrels q).getD []).toFinset (search q) 10) ∧
    (runEval queries qrels search embedT searchT).1.2.2.2 =
      ((scoredQueries queries qrels).map fun q =>
        ndcg_at_k ((qrels q).getD []).toFinset (search q) 10) ∧
    (runEval queries qrels search embedT searchT).2 =
      (evalQueries queries qrels).length := by
  refine ⟨?_, ?_, ?_, rfl⟩ <;>
    rw [runEval, evalLoop_eq, filter_evalQueries_eq_scored]

/-- C4 counterexample: an upsert call with 2 ids but only 1 vector and 1
meta does not fail — it completes, silently truncating to the single
aligned entry. -/
theorem upsert_mismatch_no_error_cex :
    (["a", "b"] : List String).length ≠ ([[(1 : ℚ)]] : List (List ℚ)).length ∧
      qdrantUpsertPoints ["a", "b"] [[(1 : ℚ)]] [[("doc_id", "x")]] =
        [("a", [(1 : ℚ)], [("doc_id", "x")])] := by
  exact ⟨by decide, rfl⟩

/-- C4 amended: no backend checks the three lengths; `upsert` combines
ids, vectors and metas with `zip`, producing exactly
`min (len ids) (min (len vectors) (len metas))` entries and raising no
error on a mismatch. -/
theorem upsert_zip_truncates (pre : String) (ids : List String)
    (vectors : List (List ℚ)) (metas : List Meta) :
    (qdrantUpsertPoints ids vectors metas).length =
        min ids.length (min vectors.length metas.length) ∧
      (redisUpsertEntries pre ids vectors metas).length =
        min ids.length (min vectors.length metas.length) ∧
      (pgvectorUpsertRows ids vectors metas).length =
        min ids.length (min vectors.length metas.length) := by
  refine ⟨?_, ?_, ?_⟩ <;>
    simp [qdrantUpsertPoints, redisUpsertEntries, pgvectorUpsertRows]

/-- C6: on scenario A — truth {d1,d3}, retrieved [d2,d1,d4,d3], k = 10 —
recall is 1, MRR is 1/2, and nDCG is
(1/log2 3 + 1/log2 5) / (1/log2 2 + 1/log2 3). -/
theorem scenario_A_metrics :
    recall_at_k {"d1", "d3"} ["d2", "d1", "d4", "d3"] 10 = 1 ∧
      mrr_at_k {"d1", "d3"} ["d2", "d1", "d4", "d3"] 10 = 1 / 2 ∧
      ndcg_at_k {"d1", "d3"} ["d2", "d1", "d4", "d3"] 10 =
        (1 / Real.logb 2 3 + 1 / Real.logb 2 5) /
          (1 / Real.logb 2 2 + 1 / Real.logb 2 3) := by
  refine ⟨?_, ?_, ?_⟩
  · norm_num [recall_at_k]
  · norm_num [mrr_at_k, mrrScan]
    decide
  · have hcard : ({"d1", "d3"} : Finset String).card = 2 := by decide
    have hidcg : idcgVal {"d1", "d3"} 10 = 1 / Real.logb 2 2 + 1 / Real.logb 2 3 := by
      rw [idcgVal, hcard]
      norm_num [Finset.sum_range_succ]
    have hdcg : dcgScan {"d1", "d3"} (["d2", "d1", "d4", "d3"].take 10) 0
        = 1 / Real.logb 2 3 + 1 / Real.logb 2 5 := by
      norm_num [dcgScan]
      rw [if_neg (by decide), if_neg (by decide)]
      ring
    have h2 : (0 : ℝ) < Real.logb 2 2 := Real.logb_pos one_lt_two (by norm_num)
    have h3 : (0 : ℝ) < Real.logb 2 3 := Real.logb_pos one_lt_two (by norm_num)
    rw [ndcg_at_k.eq_1, if_neg (by decide), hidcg, if_neg (by positivity), hdcg]

/-- C9: on an empty ground-truth set, all three metric functions return 0
instead of failing — the divisions by |T| and by the ideal DCG are behind
the empty-truth guard. -/
theorem metrics_empty_truth_zero (R : List String) (k : ℕ) :
    recall_at_k ∅ R k = 0 ∧ mrr_at_k ∅ R k = 0 ∧ ndcg_at_k ∅ R k = 0 := by
  refine ⟨?_, ?_, ?_⟩ <;> simp [recall_at_k, mrr_at_k, ndcg_at_k]

/-- C10: Neo4jVectorDB.search returns the empty list for every query
vector and k, so the retrieved id list is empty and every query scored
against the neo4j backend receives recall, MRR and nDCG of 0. -/
theorem neo4j_search_empty_metrics_zero (qv : List ℚ) (kq : ℕ)
    (truth : Finset String) (k : ℕ) :
    retrievedIds (neo4jSearch qv kq) = [] ∧
      recall_at_k truth (retrievedIds (neo4jSearch qv kq)) k = 0 ∧
      mrr_at_k truth (retrievedIds (neo4jSearch qv kq)) k = 0 ∧
      ndcg_at_k truth (retrievedIds (neo4jSearch qv kq)) k = 0 := by
  refine ⟨rfl, ?_, ?_, ?_⟩
  · simp [recall_at_k, neo4jSearch, retrievedIds]
  · simp [mrr_at_k, mrrScan, neo4jSearch, retrievedIds]
  · simp [ndcg_at_k, dcgScan, neo4jSearch, retrievedIds]

/-- C5 counterexample: with truth {a,b} and retrieved [a, b, a], the first
min(|T|, k) = 2 entries are all in T, yet nDCG@10 is not 1 — the duplicate
later hit pushes DCG above the ideal DCG. -/
theorem ndcg_perfect_prefix_cex :
    (∀ x ∈ (["a", "b", "a"] : List String).take
        (min ({"a", "b"} : Finset String).card 10), x ∈ ({"a", "b"} : Finset String)) ∧
      ndcg_at_k {"a", "b"} ["a", "b", "a"] 10 ≠ 1 := by
  constructor
  · decide
  · have h2 : Real.logb 2 2 = 1 := Real.logb_self_eq_one one_lt_two
    have h3 : (0 : ℝ) < Real.logb 2 3 := Real.logb_pos one_lt_two (by norm_num)
    have hl2 : Real.log 2 ≠ 0 := ne_of_gt (Real.log_pos one_lt_two)
    have h4 : Real.logb 2 4 = 2 := by
      rw [Real.logb, show (4 : ℝ) = 2 ^ (2 : ℕ) from by norm_num, Real.log_pow,
        mul_div_assoc, div_self hl2, mul_one]
      norm_num
    have hcard : ({"a", "b"} : Finset String).card = 2 := by decide
    have hidcg : idcgVal {"a", "b"} 10 = 1 + 1 / Real.logb 2 3 := by
      rw [idcgVal, hcard]
      norm_num [Finset.sum_range_succ, h2]
    have hdcg : dcgScan {"a", "b"} (["a", "b", "a"].take 10) 0
        = 1 + 1 / Real.logb 2 3 + 1 / 2 := by
      norm_num [dcgScan, h2, h4]
      ring
    have hpos : (0 : ℝ) < 1 + 1 / Real.logb 2 3 := by
      have hd : (0 : ℝ) < 1 / Real.logb 2 3 := div_pos one_pos h3
      linarith
    rw [ndcg_at_k.eq_1, if_neg (by decide), hidcg, if_neg (ne_of_gt hpos), hdcg]
    intro heq
    rw [div_eq_one_iff_eq (ne_of_gt hpos)] at heq
    linarith

/-- C5 amended: whenever the first min(|T|, k) retrieved entries are all in
T, `k ≥ 1`, T is non-empty, R is long enough, and the first k retrieved
entries are pairwise distinct, nDCG@k is exactly 1. -/
theorem ndcg_perfect_ranking_nodup (truth : Finset String) (R : List String)
    (k : ℕ) (hT : truth ≠ ∅) (hk : 1 ≤ k) (hlen : min truth.card k ≤ R.length)
    (hpre : ∀ x ∈ R.take (min truth.card k), x ∈ truth)
    (hnd : (R.take k).Nodup) :
    ndcg_at_k truth R k = 1 := by
  set m := min truth.card k with hm
  set L := R.take k with hL
  have hmk : m ≤ k := Nat.min_le_right _ _
  have hLlen : L.length = min k R.length := by rw [hL, List.length_take]
  have hmL : m ≤ L.length := by
    rw [hLlen]
    omega
  have hA : L.take m = R.take m := by
    rw [hL, List.take_take, Nat.min_eq_left hmk]
  have hAlen : (L.take m).length = m := by
    rw [List.length_take, Nat.min_eq_left hmL]
  have hhits : ∀ x ∈ L.take m, x ∈ truth := by
    rw [hA]
    exact hpre
  have hsplit : L.take m ++ L.drop m = L := List.take_append_drop m L
  have hndL : L.Nodup := hnd
  have hmiss : ∀ x ∈ L.drop m, x ∉ truth := by
    rcases Nat.le_total truth.card k with hck | hck
    · have hmcard : m = truth.card := by
        rw [hm]
        exact Nat.min_eq_left hck
      have hndA : (L.take m).Nodup := (List.take_sublist m L).nodup hndL
      have hdisj : List.Disjoint (L.take m) (L.drop m) := by
        have hnd2 : (L.take m ++ L.drop m).Nodup := by rw [hsplit]; exact hndL
        exact (List.nodup_append.mp hnd2).2.2
      have hsub : (L.take m).toFinset ⊆ truth := by
        intro x hx
        exact hhits x (List.mem_toFinset.mp hx)
      have hcardA : (L.take m).toFinset.card = m := by
        rw [List.toFinset_card_of_nodup hndA, hAlen]
      have hEq : (L.take m).toFinset = truth :=
        Finset.eq_of_subset_of_card_le hsub (by rw [hcardA, hmcard])
      intro x hxB hxT
      rw [← hEq] at hxT
      exact hdisj (List.mem_toFinset.mp hxT) hxB
    · have hnil : L.drop m = [] := by
        apply List.drop_eq_nil_of_le
        rw [hLlen, hm, Nat.min_eq_right hck]
        omega
      rw [hnil]
      intro x hx
      exact absurd hx (List.not_mem_nil x)
  have hdcg : dcgScan truth L 0 = idcgVal truth k := by
    conv_lhs => rw [← hsplit]
    rw [dcgScan_append, dcgScan_all_miss _ _ _ hmiss, add_zero,
      dcgScan_all_hits _ _ _ hhits, hAlen, idcgVal, ← hm]
    apply Finset.sum_congr rfl
    intro i _
    norm_num
  have hpos := idcgVal_pos truth k hT hk
  rw [ndcg_at_k.eq_1, if_neg hT, if_neg (ne_of_gt hpos), ← hL, hdcg,
    div_self (ne_of_gt hpos)]

/-- C5 witness: a concrete perfect ranking — truth {a,b}, retrieved [a, b],
k = 10 — yields nDCG exactly 1. -/
theorem ndcg_perfect_ranking_nodup_witness :
    ndcg_at_k {"a", "b"} ["a", "b"] 10 = 1 :=
  ndcg_perfect_ranking_nodup {"a", "b"} ["a", "b"] 10 (by decide) (by norm_num)
    (by decide) (by decide) (by decide)

/-- C7: indexing any 2500-document corpus with batch size 1000 issues
exactly three upserts of sizes 1000, 1000 and 500, in that order, and
concatenating the batches in order gives back the corpus unchanged. -/
theorem batching_2500_docs {α : Type} (l : List α) (h : l.length = 2500) :
    (pyBatches l 1000).map List.length = [1000, 1000, 500] ∧
      (pyBatches l 1000).flatten = l := by
  have hb : pyBatches l 1000 =
      [l.take 1000, (l.drop 1000).take 1000, (l.drop 2000).take 1000] := by
    rw [pyBatches, h]
    norm_num [List.range_succ]
  constructor
  · rw [hb]
    simp [List.length_take, List.length_drop, h]
  · rw [hb]
    have e3 : (l.drop 2000).take 1000 = l.drop 2000 := by
      apply List.take_of_length_le
      rw [List.length_drop, h]
      omega
    have e2 : (l.drop 1000).take 1000 ++ l.drop 2000 = l.drop 1000 := by
      have ht := List.take_append_drop 1000 (l.drop 1000)
      rwa [List.drop_drop, show 1000 + 1000 = 2000 from rfl] at ht
    simp only [List.flatten_cons, List.flatten_nil, List.append_nil, e3]
    rw [e2, List.take_append_drop]

/-- C7 witness: the batch-size schedule on a concrete 2500-element corpus. -/
theorem batching_2500_docs_witness :
    (pyBatches (List.replicate 2500 (0 : ℕ)) 1000).map List.length
        = [1000, 1000, 500] ∧
      (pyBatches (List.replicate 2500 (0 : ℕ)) 1000).flatten
        = List.replicate 2500 (0 : ℕ) :=
  batching_2500_docs (List.replicate 2500 0) (by rw [List.length_replicate])

/-- C8: a document id is in a query's loaded relevant list iff the qrels
rows contain a judgment for that pair with a strictly positive score —
zero- and negative-score judgments are excluded from every relevant set. -/
theorem load_qrels_positive_only (rows : List (String × String × ℤ))
    (qid cid : String) :
    cid ∈ ((load_qrels rows qid).getD []) ↔
      ∃ s : ℤ, (qid, cid, s) ∈ rows ∧ 0 < s := by
  rw [load_qrels, foldl_qrelsStep_mem]
  simp

end DbBench
